import Mathlib

/-!
Shallow embedding of `src/1password_audit.py`, a 1Password access-audit
script.  The Python code fetches vaults, groups and group memberships from
the `op` CLI, resolves per-vault access (direct grants plus group-derived
grants) into one accumulated record per user, and flattens the records
into CSV report rows.

Modelling conventions:
* a JSON object field that may be absent is an `Option`; Python's
  `d.get(k, default)` becomes `Option.getD`;
* Python's falsy test `if not user_id` on a string-or-None id holds for
  `none` and `some ""`;
* Python `set` values become `Finset String` (the code only ever inserts,
  unions, and finally sorts them);
* the insertion-ordered Python dict `vault_access` becomes an association
  list updated by `upsert` (insert at the end when absent, update in
  place when present);
* each `op` subprocess call is represented by a `RawResult`: either a
  parsed payload, a non-zero exit (`procError`), or malformed JSON
  (`jsonError`).  A `World` packages the outcome of every call the run
  would make, so `runMain` is a pure function of the world plus the
  completion order of the concurrent vault tasks.
-/

namespace OPAudit

/-- Outcome of one `op` subprocess invocation followed by JSON parsing:
either a parsed payload, a non-zero exit status (`subprocess.CalledProcessError`),
or a structurally malformed JSON body (`json.JSONDecodeError`). -/
inductive RawResult (α : Type) where
  | ok (payload : α)
  | procError
  | jsonError
deriving DecidableEq, Repr

/-- Whether the call succeeded. -/
def RawResult.isOk {α : Type} : RawResult α → Bool
  | .ok _ => true
  | .procError => false
  | .jsonError => false

/-- A vault record as listed by `op vault list`: both fields may be absent. -/
structure VaultRec where
  id : Option String
  name : Option String
deriving DecidableEq, Repr

/-- A user record (direct vault user or group member): `permissions` models
the JSON list behind `user.get ("permissions", [])`. -/
structure UserRec where
  id : Option String
  name : Option String
  email : Option String
  permissions : Option (List String)
deriving DecidableEq, Repr

/-- A group record; for vault-group listings `permissions` is the group's
grant on that vault. -/
structure GroupRec where
  id : Option String
  name : Option String
  permissions : Option (List String)
deriving DecidableEq, Repr

/-- Python truthiness of a string-or-None id: `not x` holds for `None`
and for the empty string. -/
def falsyId : Option String → Bool
  | none => true
  | some s => s = ""

/-- `get_vaults`: fatal on failure — the Python function prints a
diagnostic and calls `sys.exit 1`, modelled as `Except.error`. -/
def get_vaults (r : RawResult (List VaultRec)) : Except String (List VaultRec) :=
  match r with
  | .ok xs => .ok xs
  | .procError => .error "Error fetching vaults"
  | .jsonError => .error "Error fetching vaults"

/-- `get_all_groups`: fatal on failure, like `get_vaults`. -/
def get_all_groups (r : RawResult (List GroupRec)) : Except String (List GroupRec) :=
  match r with
  | .ok xs => .ok xs
  | .procError => .error "Error fetching groups"
  | .jsonError => .error "Error fetching groups"

/-- `get_vault_users`: per-resource call; any failure degrades to `[]`. -/
def get_vault_users (r : RawResult (List UserRec)) : List UserRec :=
  match r with
  | .ok xs => xs
  | .procError => []
  | .jsonError => []

/-- `get_vault_groups`: per-resource call; any failure degrades to `[]`. -/
def get_vault_groups (r : RawResult (List GroupRec)) : List GroupRec :=
  match r with
  | .ok xs => xs
  | .procError => []
  | .jsonError => []

/-- `get_group_members`: per-resource call; any failure degrades to `[]`. -/
def get_group_members (r : RawResult (List UserRec)) : List UserRec :=
  match r with
  | .ok xs => xs
  | .procError => []
  | .jsonError => []

/-- The per-user accumulator built inside `process_vault`
(`vault_access[user_id]`): name, email, permission set, access-path labels. -/
structure AccessRecord where
  name : String
  email : String
  permissions : Finset String
  access_via : Finset String
deriving DecidableEq

/-- The insertion-ordered dict `vault_access`, keyed by user id. -/
abbrev AccessMap := List (String × AccessRecord)

/-- The membership cache `group_members_cache`, keyed by group id. -/
abbrev Cache := List (String × List UserRec)

/-- Dict lookup `m[k]` (as an `Option`, first matching key). -/
def lookup? (m : AccessMap) (k : String) : Option AccessRecord :=
  (m.find? (fun p => p.1 = k)).map (fun p => p.2)

/-- `group_members_cache.get (group_id, [])`: missing key yields `[]`. -/
def cacheGet (c : Cache) (gid : String) : List UserRec :=
  match c.find? (fun p => p.1 = gid) with
  | some p => p.2
  | none => []

/-- The Python dict update pattern
`if k not in d: d[k] = fresh else: mutate d[k]`:
insert at the end when the key is absent, update in place when present. -/
def upsert (m : AccessMap) (k : String) (fresh : AccessRecord)
    (touch : AccessRecord → AccessRecord) : AccessMap :=
  match m with
  | [] => [(k, fresh)]
  | p :: rest =>
      if p.1 = k then (p.1, touch p.2) :: rest
      else p :: upsert rest k fresh touch

/-- The shared mutation of an existing record when one more access path is
observed: `access_via.add lbl; permissions.update ps`. -/
def recordAddPath (lbl : String) (ps : List String) (r : AccessRecord) : AccessRecord :=
  { r with access_via := insert lbl r.access_via,
           permissions := r.permissions ∪ ps.toFinset }

/-- The fresh record created for a direct vault user. -/
def freshDirect (u : UserRec) : AccessRecord :=
  { name := u.name.getD "Unknown User",
    email := u.email.getD "No Email",
    permissions := (u.permissions.getD []).toFinset,
    access_via := {"Direct"} }

/-- One iteration of the direct-user loop in `process_vault`. -/
def addDirectUser (m : AccessMap) (u : UserRec) : AccessMap :=
  match u.id with
  | none => m
  | some uid =>
      if uid = "" then m
      else upsert m uid (freshDirect u) (recordAddPath "Direct" (u.permissions.getD []))

/-- The fresh record created for a member reached through a group grant. -/
def freshGroup (gname : String) (gperms : List String) (mem : UserRec) : AccessRecord :=
  { name := mem.name.getD "Unknown User",
    email := mem.email.getD "No Email",
    permissions := gperms.toFinset,
    access_via := {"Group: " ++ gname} }

/-- One iteration of the member loop inside the group loop. -/
def addMember (gname : String) (gperms : List String) (m : AccessMap) (mem : UserRec) : AccessMap :=
  match mem.id with
  | none => m
  | some uid =>
      if uid = "" then m
      else upsert m uid (freshGroup gname gperms mem) (recordAddPath ("Group: " ++ gname) gperms)

/-- One iteration of the group loop in `process_vault`: skip a falsy group
id, otherwise fold the cached members (cache miss = no members). -/
def addGroup (cache : Cache) (m : AccessMap) (g : GroupRec) : AccessMap :=
  let gname := g.name.getD "Unknown Group"
  let gperms := g.permissions.getD []
  match g.id with
  | none => m
  | some gid =>
      if gid = "" then m
      else (cacheGet cache gid).foldl (addMember gname gperms) m

/-- The whole accumulation phase of `process_vault`: direct users first,
then group grants, starting from the empty dict. -/
def buildVaultAccess (du : List UserRec) (vg : List GroupRec) (cache : Cache) : AccessMap :=
  vg.foldl (addGroup cache) (du.foldl addDirectUser [])

/-- `", ".join (sorted (list s))` on a Python set. -/
def joinSorted (s : Finset String) : String :=
  String.intercalate ", " (s.sort (· ≤ ·))

/-- One flattened CSV report row. -/
structure ReportRow where
  userName : String
  userEmail : String
  vaultName : String
  permissionsField : String
  accessViaField : String
deriving DecidableEq, Repr

/-- Flattening an accumulated record into a report row. -/
def flattenRow (vname : String) (r : AccessRecord) : ReportRow :=
  { userName := r.name,
    userEmail := r.email,
    vaultName := vname,
    permissionsField := joinSorted r.permissions,
    accessViaField := joinSorted r.access_via }

/-- `process_vault`, with the two per-vault fetches already performed
(`du` = the direct-user list, `vg` = the vault-group list): return `[]`
for a falsy vault id, otherwise accumulate and flatten. -/
def process_vault (vault : VaultRec) (du : List UserRec) (vg : List GroupRec)
    (cache : Cache) : List ReportRow :=
  match vault.id with
  | none => []
  | some vid =>
      if vid = "" then []
      else (buildVaultAccess du vg cache).map
        (fun p => flattenRow (vault.name.getD "Unknown Vault") p.2)

/-- The outcome of every external call a run would make, plus whether the
CSV write would succeed.  Per-resource outcomes are keyed by the id the
script would pass to `op`. -/
structure World where
  opInstalled : Bool
  signedIn : Bool
  vaultsRaw : RawResult (List VaultRec)
  groupsRaw : RawResult (List GroupRec)
  vaultUsers : String → RawResult (List UserRec)
  vaultGroups : String → RawResult (List GroupRec)
  groupMembers : String → RawResult (List UserRec)
  writeOk : Bool

/-- Stage 4 of `main`: keep the groups with a truthy id
(`relevant_groups`), fetch each group's members, and key the results by
group id.  Completion order of the concurrent fetches does not affect the
resulting mapping because each task writes its own key. -/
def buildCache (w : World) (groups : List GroupRec) : Cache :=
  (groups.filter (fun g => !falsyId g.id)).map
    (fun g => (g.id.getD "", get_group_members (w.groupMembers (g.id.getD ""))))

/-- One vault task of stage 5: `process_vault` applied to the fetched
direct-user and vault-group lists for this vault's id.  (For a falsy
vault id `process_vault` returns `[]` before using either list, so the
`getD ""` key is never consulted in that case.) -/
def resolveVault (w : World) (cache : Cache) (v : VaultRec) : List ReportRow :=
  process_vault v
    (get_vault_users (w.vaultUsers (v.id.getD "")))
    (get_vault_groups (w.vaultGroups (v.id.getD "")))
    cache

/-- How a run of `main` ends: `fatalExit` models `sys.exit 1` with its
diagnostic; `finished` models falling through to the final success
message (exit status 0), carrying the resolved report and whether the
CSV write succeeded (`main` catches `IOError`, prints the error and
continues). -/
inductive MainOutcome where
  | fatalExit (msg : String)
  | finished (report : List ReportRow) (writeSucceeded : Bool)
deriving DecidableEq, Repr

/-- The process exit status of an outcome. -/
def exitCode : MainOutcome → Nat
  | .fatalExit _ => 1
  | .finished _ _ => 0

/-- The in-memory `report_data` at the end of a run, when stage 5 was
reached. -/
def reportOf : MainOutcome → Option (List ReportRow)
  | .fatalExit _ => none
  | .finished r _ => some r

/-- `main`, as a function of the world and of the completion order of the
concurrent vault tasks (`asyncio.as_completed` yields vault results in an
arbitrary order; `order` is that order, a permutation of the fetched
vault list).  Stages: CLI checks, fatal vault fetch, fatal group fetch,
cache build, vault fan-out/fan-in, CSV write. -/
def runMain (w : World) (order : List VaultRec) : MainOutcome :=
  if !w.opInstalled then .fatalExit "op CLI is not installed"
  else if !w.signedIn then .fatalExit "not signed in"
  else
    match get_vaults w.vaultsRaw with
    | .error e => .fatalExit e
    | .ok _ =>
        match get_all_groups w.groupsRaw with
        | .error e => .fatalExit e
        | .ok groups =>
            let cache := buildCache w groups
            let report := order.flatMap (fun v => resolveVault w cache v)
            .finished report w.writeOk

/-! ### Helper lemmas about the dict operations -/

theorem lookup?_nil (k : String) : lookup? [] k = none := rfl

theorem lookup?_cons (p : String × AccessRecord) (rest : AccessMap) (k : String) :
    lookup? (p :: rest) k = if p.1 = k then some p.2 else lookup? rest k := by
  by_cases h : p.1 = k <;> simp [lookup?, List.find?, h]

theorem lookup?_upsert_self (m : AccessMap) (k : String) (a : AccessRecord)
    (f : AccessRecord → AccessRecord) :
    lookup? (upsert m k a f) k = some ((lookup? m k).elim a f) := by
  induction m with
  | nil => simp [upsert, lookup?_cons, lookup?_nil]
  | cons p rest ih =>
      by_cases h : p.1 = k
      · simp [upsert, h, lookup?_cons]
      · simp [upsert, h, lookup?_cons, ih]

theorem lookup?_upsert_ne (m : AccessMap) (k k' : String) (a : AccessRecord)
    (f : AccessRecord → AccessRecord) (hne : k' ≠ k) :
    lookup? (upsert m k a f) k' = lookup? m k' := by
  induction m with
  | nil => simp [upsert, lookup?_cons, lookup?_nil, Ne.symm hne]
  | cons p rest ih =>
      by_cases h : p.1 = k
      · have h' : p.1 ≠ k' := fun hc => hne (hc ▸ h ▸ rfl)
        simp [upsert, h, lookup?_cons, h', Ne.symm hne]
      · simp [upsert, h, lookup?_cons, ih]

theorem mem_of_lookup? (m : AccessMap) (k : String) (r : AccessRecord)
    (h : lookup? m k = some r) : (k, r) ∈ m := by
  induction m with
  | nil => simp [lookup?_nil] at h
  | cons p rest ih =>
      rw [lookup?_cons] at h
      by_cases hk : p.1 = k
      · rw [if_pos hk] at h
        have hr : p.2 = r := Option.some.inj h
        have hp : (k, r) = p := by
          cases p
          simp only [Prod.mk.injEq]
          exact ⟨hk.symm, hr.symm⟩
        rw [hp]
        exact List.mem_cons_self p rest
      · rw [if_neg hk] at h
        exact List.mem_cons_of_mem _ (ih h)

/-- The `upsert` pattern preserves any per-record predicate that holds of
the fresh record and is preserved by the touch function. -/
theorem upsert_preserves (P : AccessRecord → Prop) (m : AccessMap) (k : String)
    (a : AccessRecord) (f : AccessRecord → AccessRecord)
    (hm : ∀ q ∈ m, P q.2) (ha : P a) (hf : ∀ r, P r → P (f r)) :
    ∀ q ∈ upsert m k a f, P q.2 := by
  induction m with
  | nil =>
      intro q hq
      simp only [upsert, List.mem_singleton] at hq
      simpa [hq] using ha
  | cons p rest ih =>
      intro q hq
      by_cases h : p.1 = k
      · simp only [upsert, if_pos h, List.mem_cons] at hq
        rcases hq with hq | hq
        · simpa [hq] using hf p.2 (hm p (List.mem_cons_self p rest))
        · exact hm q (List.mem_cons_of_mem _ hq)
      · simp only [upsert, if_neg h, List.mem_cons] at hq
        rcases hq with hq | hq
        · simpa [hq] using hm p (List.mem_cons_self p rest)
        · exact ih (fun q hq => hm q (List.mem_cons_of_mem _ hq)) q hq

/-! ### Fold characterizations of the accumulation phases

For a fixed non-empty user id, each accumulation loop changes the id's
entry exactly according to the sub-list of loop iterations that mention
that id. -/

/-- Generic form of the two user loops: any step function of the shape
"skip falsy id, else upsert with a fresh/touch pair" evolves one id's
entry by folding over the iterations whose record carries that id. -/
theorem lookup?_foldl_userloop (uid : String) (huid : uid ≠ "")
    (fresh : UserRec → AccessRecord) (touch : UserRec → AccessRecord → AccessRecord)
    (step : AccessMap → UserRec → AccessMap)
    (hstep : ∀ m u, step m u = match u.id with
      | none => m
      | some s => if s = "" then m else upsert m s (fresh u) (touch u))
    (xs : List UserRec) (m : AccessMap) :
    lookup? (xs.foldl step m) uid =
      (xs.filter (fun u => u.id == some uid)).foldl
        (fun acc u => some (acc.elim (fresh u) (touch u))) (lookup? m uid) := by
  induction xs generalizing m with
  | nil => rfl
  | cons u xs ih =>
      rw [List.foldl_cons]
      cases hid : u.id with
      | none =>
          have hskip : step m u = m := by rw [hstep, hid]
          have hfilt : ¬((u.id == some uid) = true) := by simp [hid]
          rw [hskip, ih m, List.filter_cons, if_neg hfilt]
      | some s =>
          by_cases hs : s = ""
          · have hskip : step m u = m := by rw [hstep, hid]; simp [hs]
            have hfilt : ¬((u.id == some uid) = true) := by
              simp [hid, hs]
              intro hc
              exact huid hc.symm
            rw [hskip, ih m, List.filter_cons, if_neg hfilt]
          · by_cases hsu : s = uid
            · have hup : step m u = upsert m uid (fresh u) (touch u) := by
                rw [hstep, hid]
                simp [hs, hsu, huid]
              have hfilt : (u.id == some uid) = true := by simp [hid, hsu]
              rw [hup, ih, lookup?_upsert_self, List.filter_cons, if_pos hfilt,
                List.foldl_cons]
            · have hup : step m u = upsert m s (fresh u) (touch u) := by
                rw [hstep, hid]; simp [hs]
              have hfilt : ¬((u.id == some uid) = true) := by simp [hid, hsu]
              rw [hup, ih, List.filter_cons, if_neg hfilt,
                lookup?_upsert_ne _ _ _ _ _ (fun hc => hsu hc.symm)]

theorem addDirectUser_shape (m : AccessMap) (u : UserRec) :
    addDirectUser m u = match u.id with
      | none => m
      | some s => if s = "" then m
          else upsert m s (freshDirect u) (recordAddPath "Direct" (u.permissions.getD [])) := by
  cases h : u.id <;> simp [addDirectUser, h]

theorem addMember_shape (gname : String) (gperms : List String) (m : AccessMap) (u : UserRec) :
    addMember gname gperms m u = match u.id with
      | none => m
      | some s => if s = "" then m
          else upsert m s (freshGroup gname gperms u)
            (recordAddPath ("Group: " ++ gname) gperms) := by
  cases h : u.id <;> simp [addMember, h]

/-- The member list a group grant actually iterates over: empty for a
falsy group id, otherwise the cache entry (empty on a cache miss). -/
def groupMembersUsed (cache : Cache) (g : GroupRec) : List UserRec :=
  match g.id with
  | none => []
  | some gid => if gid = "" then [] else cacheGet cache gid

theorem addGroup_eq_foldl (cache : Cache) (m : AccessMap) (g : GroupRec) :
    addGroup cache m g = (groupMembersUsed cache g).foldl
      (addMember (g.name.getD "Unknown Group") (g.permissions.getD [])) m := by
  cases hid : g.id with
  | none => simp [addGroup, groupMembersUsed, hid]
  | some gid =>
      by_cases hs : gid = "" <;> simp [addGroup, groupMembersUsed, hid, hs]

/-- The group-phase loop iterations that mention a given user id:
one `(group grant, member record)` pair per matching cached member,
in loop order. -/
def groupUpdates (cache : Cache) (vg : List GroupRec) (uid : String) :
    List (GroupRec × UserRec) :=
  vg.flatMap (fun g =>
    ((groupMembersUsed cache g).filter (fun u => u.id == some uid)).map (fun mem => (g, mem)))

/-- The effect of one group-phase iteration on a user's entry. -/
def groupStep (acc : Option AccessRecord) (gu : GroupRec × UserRec) : Option AccessRecord :=
  some (acc.elim
    (freshGroup (gu.1.name.getD "Unknown Group") (gu.1.permissions.getD []) gu.2)
    (recordAddPath ("Group: " ++ gu.1.name.getD "Unknown Group") (gu.1.permissions.getD [])))

theorem lookup?_foldl_addGroup (cache : Cache) (uid : String) (huid : uid ≠ "")
    (vg : List GroupRec) (m : AccessMap) :
    lookup? (vg.foldl (addGroup cache) m) uid =
      (groupUpdates cache vg uid).foldl groupStep (lookup? m uid) := by
  induction vg generalizing m with
  | nil => rfl
  | cons g vg ih =>
      rw [List.foldl_cons, ih, addGroup_eq_foldl,
        lookup?_foldl_userloop uid huid (freshGroup (g.name.getD "Unknown Group") (g.permissions.getD []))
          (fun _ => recordAddPath ("Group: " ++ g.name.getD "Unknown Group") (g.permissions.getD []))
          (addMember (g.name.getD "Unknown Group") (g.permissions.getD []))
          (addMember_shape (g.name.getD "Unknown Group") (g.permissions.getD []))]
      simp only [groupUpdates, List.flatMap_cons, List.foldl_append, List.foldl_map]
      rfl

/-- The overall entry of one user id in the finished accumulator:
direct-phase fold followed by group-phase fold. -/
theorem lookup?_buildVaultAccess (du : List UserRec) (vg : List GroupRec) (cache : Cache)
    (uid : String) (huid : uid ≠ "") :
    lookup? (buildVaultAccess du vg cache) uid =
      (groupUpdates cache vg uid).foldl groupStep
        ((du.filter (fun u => u.id == some uid)).foldl
          (fun acc u => some (acc.elim (freshDirect u)
            (recordAddPath "Direct" (u.permissions.getD [])))) none) := by
  rw [buildVaultAccess, lookup?_foldl_addGroup cache uid huid,
    lookup?_foldl_userloop uid huid freshDirect
      (fun u => recordAddPath "Direct" (u.permissions.getD []))
      addDirectUser addDirectUser_shape, lookup?_nil]

/-! ### Further structural lemmas: cache congruence, state threading,
invariant preservation -/

theorem addGroup_congr (c c' : Cache) (hext : ∀ gid, cacheGet c gid = cacheGet c' gid)
    (m : AccessMap) (g : GroupRec) : addGroup c m g = addGroup c' m g := by
  cases h : g.id with
  | none => simp [addGroup, h]
  | some gid => simp [addGroup, h, hext gid]

theorem foldl_addGroup_congr (c c' : Cache) (hext : ∀ gid, cacheGet c gid = cacheGet c' gid)
    (vg : List GroupRec) (m : AccessMap) :
    vg.foldl (addGroup c) m = vg.foldl (addGroup c') m := by
  induction vg generalizing m with
  | nil => rfl
  | cons g vg ih => rw [List.foldl_cons, List.foldl_cons, addGroup_congr c c' hext, ih]

theorem process_vault_congr (c c' : Cache) (hext : ∀ gid, cacheGet c gid = cacheGet c' gid)
    (v : VaultRec) (du : List UserRec) (vg : List GroupRec) :
    process_vault v du vg c = process_vault v du vg c' := by
  cases h : v.id with
  | none => simp [process_vault, h]
  | some vid =>
      simp only [process_vault, h]
      rw [buildVaultAccess, buildVaultAccess, foldl_addGroup_congr c c' hext]

/-- State-threaded rendering of the cache lookup inside the group loop:
`group_members_cache.get` reads the dict and leaves it untouched. -/
def cacheGetS (c : Cache) (gid : String) : List UserRec × Cache :=
  (cacheGet c gid, c)

/-- State-threaded rendering of one group-loop iteration. -/
def addGroupS (st : AccessMap × Cache) (g : GroupRec) : AccessMap × Cache :=
  let gname := g.name.getD "Unknown Group"
  let gperms := g.permissions.getD []
  match g.id with
  | none => st
  | some gid =>
      if gid = "" then st
      else
        let res := cacheGetS st.2 gid
        (res.1.foldl (addMember gname gperms) st.1, res.2)

/-- State-threaded rendering of `process_vault`, returning the rows
together with the membership cache as it stands after the call. -/
def process_vaultS (vault : VaultRec) (du : List UserRec) (vg : List GroupRec)
    (cache : Cache) : List ReportRow × Cache :=
  match vault.id with
  | none => ([], cache)
  | some vid =>
      if vid = "" then ([], cache)
      else
        let st := vg.foldl addGroupS (du.foldl addDirectUser [], cache)
        (st.1.map (fun p => flattenRow (vault.name.getD "Unknown Vault") p.2), st.2)

theorem addGroupS_eq (m : AccessMap) (c : Cache) (g : GroupRec) :
    addGroupS (m, c) g = (addGroup c m g, c) := by
  cases h : g.id with
  | none => simp [addGroupS, addGroup, h]
  | some gid => by_cases hs : gid = "" <;> simp [addGroupS, addGroup, cacheGetS, h, hs]

theorem foldl_addGroupS_eq (vg : List GroupRec) (m : AccessMap) (c : Cache) :
    vg.foldl addGroupS (m, c) = (vg.foldl (addGroup c) m, c) := by
  induction vg generalizing m with
  | nil => rfl
  | cons g vg ih => rw [List.foldl_cons, List.foldl_cons, addGroupS_eq, ih]

theorem foldl_preserves (P : AccessRecord → Prop)
    (step : AccessMap → UserRec → AccessMap)
    (hstep : ∀ m u, (∀ q ∈ m, P q.2) → ∀ q ∈ step m u, P q.2)
    (xs : List UserRec) (m : AccessMap) (hm : ∀ q ∈ m, P q.2) :
    ∀ q ∈ xs.foldl step m, P q.2 := by
  induction xs generalizing m with
  | nil => exact hm
  | cons u xs ih => exact ih (step m u) (hstep m u hm)

theorem addDirectUser_preserves (P : AccessRecord → Prop)
    (hfresh : ∀ u, P (freshDirect u))
    (htouch : ∀ (u : UserRec) (r : AccessRecord),
      P r → P (recordAddPath "Direct" (u.permissions.getD []) r))
    (m : AccessMap) (u : UserRec) (hm : ∀ q ∈ m, P q.2) :
    ∀ q ∈ addDirectUser m u, P q.2 := by
  rw [addDirectUser_shape]
  cases u.id with
  | none => exact hm
  | some s =>
      by_cases hs : s = ""
      · simpa [hs] using hm
      · simp only [if_neg hs]
        exact upsert_preserves P m s _ _ hm (hfresh u) (htouch u)

theorem addMember_preserves (P : AccessRecord → Prop) (gname : String) (gperms : List String)
    (hfresh : ∀ u, P (freshGroup gname gperms u))
    (htouch : ∀ r, P r → P (recordAddPath ("Group: " ++ gname) gperms r))
    (m : AccessMap) (u : UserRec) (hm : ∀ q ∈ m, P q.2) :
    ∀ q ∈ addMember gname gperms m u, P q.2 := by
  rw [addMember_shape]
  cases u.id with
  | none => exact hm
  | some s =>
      by_cases hs : s = ""
      · simpa [hs] using hm
      · simp only [if_neg hs]
        exact upsert_preserves P m s _ _ hm (hfresh u) htouch

/-- Every record ever placed in the accumulator has a non-empty
`access_via` label set: fresh records are created with one label and
updates only insert labels. -/
theorem buildVaultAccess_access_via_nonempty (du : List UserRec) (vg : List GroupRec)
    (cache : Cache) : ∀ q ∈ buildVaultAccess du vg cache, q.2.access_via.Nonempty := by
  have hdir : ∀ q ∈ du.foldl addDirectUser ([] : AccessMap), q.2.access_via.Nonempty := by
    refine foldl_preserves (fun r => r.access_via.Nonempty) addDirectUser ?_ du []
      (by intro q hq; simp at hq)
    intro m u hm
    refine addDirectUser_preserves (fun r => r.access_via.Nonempty) ?_ ?_ m u hm
    · intro u
      exact ⟨"Direct", by simp [freshDirect]⟩
    · intro u r _
      exact ⟨"Direct", by simp [recordAddPath]⟩
  have hgrp : ∀ (vgl : List GroupRec) (m : AccessMap),
      (∀ q ∈ m, q.2.access_via.Nonempty) →
      ∀ q ∈ vgl.foldl (addGroup cache) m, q.2.access_via.Nonempty := by
    intro vgl
    induction vgl with
    | nil => exact fun m hm => hm
    | cons g vgl ih =>
        intro m hm
        rw [List.foldl_cons]
        refine ih _ ?_
        rw [addGroup_eq_foldl]
        refine foldl_preserves (fun r => r.access_via.Nonempty) _ ?_ _ m hm
        intro m' u hm'
        refine addMember_preserves (fun r => r.access_via.Nonempty) _ _ ?_ ?_ m' u hm'
        · intro x
          exact ⟨"Group: " ++ g.name.getD "Unknown Group", by simp [freshGroup]⟩
        · intro r _
          exact ⟨"Group: " ++ g.name.getD "Unknown Group", by simp [recordAddPath]⟩
  rw [buildVaultAccess]
  exact hgrp vg _ hdir

theorem exitCode_dichotomy (o : MainOutcome) : exitCode o = 0 ∨ exitCode o = 1 := by
  cases o <;> simp [exitCode]

/-- A run reaches exit status 0 exactly when the CLI checks pass and both
universe fetches succeed; the CSV write result plays no part. -/
theorem runMain_exit_zero_iff (w : World) (order : List VaultRec) :
    exitCode (runMain w order) = 0 ↔
      (w.opInstalled = true ∧ w.signedIn = true ∧
        w.vaultsRaw.isOk = true ∧ w.groupsRaw.isOk = true) := by
  by_cases h1 : w.opInstalled <;> by_cases h2 : w.signedIn <;>
    cases hv : w.vaultsRaw <;> cases hg : w.groupsRaw <;>
      simp [runMain, h1, h2, hv, hg, get_vaults, get_all_groups, exitCode, RawResult.isOk]

theorem cacheGet_append_empty (cache : Cache) (gid : String) (g' : String) :
    cacheGet (cache ++ [(gid, [])]) g' = cacheGet cache g' := by
  unfold cacheGet
  rw [List.find?_append]
  cases hf : cache.find? (fun p => p.1 = g') with
  | some p => simp [hf]
  | none =>
      simp only [hf, Option.none_or]
      by_cases hg : gid = g'
      · subst hg
        simp [List.find?]
      · simp [List.find?, hg]

/-! ### Claim theorems -/

/-- Claim C5: every report row the resolver emits corresponds to an
accumulated record with at least one access-path label, and a vault with
zero direct users and zero group grants yields zero rows. -/
theorem rows_require_access_path (v : VaultRec) (du : List UserRec) (vg : List GroupRec)
    (cache : Cache) :
    (∀ row ∈ process_vault v du vg cache,
      ∃ rec : AccessRecord, rec.access_via.Nonempty ∧
        row = flattenRow (v.name.getD "Unknown Vault") rec) ∧
    (du = [] → vg = [] → process_vault v du vg cache = []) := by
  constructor
  · intro row hrow
    cases h : v.id with
    | none => simp [process_vault, h] at hrow
    | some vid =>
        by_cases hs : vid = ""
        · simp [process_vault, h, hs] at hrow
        · simp only [process_vault, h, if_neg hs, List.mem_map] at hrow
          obtain ⟨q, hq, heq⟩ := hrow
          exact ⟨q.2, buildVaultAccess_access_via_nonempty du vg cache q hq, heq.symm⟩
  · intro h1 h2
    subst h1
    subst h2
    cases h : v.id with
    | none => simp [process_vault, h]
    | some vid =>
        by_cases hs : vid = "" <;> simp [process_vault, h, hs, buildVaultAccess]

/-- Witness for C5 at a concrete empty vault. -/
theorem rows_require_access_path_witness :
    process_vault ⟨some "v1", some "Empty Vault"⟩ [] [] [] = [] :=
  (rows_require_access_path ⟨some "v1", some "Empty Vault"⟩ [] [] []).2 rfl rfl

/-- Claim C6: observing the same permission or the same access-path label
a second time changes nothing; every observed permission appears exactly
once among the components of the sorted, joined permissions field, and
every label exactly once in the access-via field. -/
theorem access_accumulation_idempotent (r : AccessRecord) (lbl lbl2 : String)
    (ps : List String) (p : String) (hp : p ∈ ps) :
    recordAddPath lbl ps (recordAddPath lbl ps r) = recordAddPath lbl ps r ∧
    ((recordAddPath lbl ps r).permissions.sort (· ≤ ·)).count p = 1 ∧
    ((recordAddPath lbl2 ps (recordAddPath lbl ps r)).permissions.sort (· ≤ ·)).count p = 1 ∧
    ((recordAddPath lbl ps r).access_via.sort (· ≤ ·)).count lbl = 1 := by
  refine ⟨?_, ?_, ?_, ?_⟩
  · cases r
    simp [recordAddPath, Finset.insert_idem, Finset.union_assoc, Finset.union_self]
  · exact List.count_eq_one_of_mem (Finset.sort_nodup _ _)
      ((Finset.mem_sort _).mpr (Finset.mem_union_right _ (List.mem_toFinset.mpr hp)))
  · exact List.count_eq_one_of_mem (Finset.sort_nodup _ _)
      ((Finset.mem_sort _).mpr (Finset.mem_union_right _ (List.mem_toFinset.mpr hp)))
  · exact List.count_eq_one_of_mem (Finset.sort_nodup _ _)
      ((Finset.mem_sort _).mpr (Finset.mem_insert_self _ _))

/-- Witness for C6 at a concrete record and permission. -/
theorem access_accumulation_idempotent_witness :
    recordAddPath "Direct" ["read"]
        (recordAddPath "Direct" ["read"] ⟨"Alice", "a@x", ∅, ∅⟩) =
      recordAddPath "Direct" ["read"] ⟨"Alice", "a@x", ∅, ∅⟩ ∧
    ((recordAddPath "Direct" ["read"] ⟨"Alice", "a@x", ∅, ∅⟩).permissions.sort
        (· ≤ ·)).count "read" = 1 ∧
    ((recordAddPath "Group: Admins" ["read"]
        (recordAddPath "Direct" ["read"] ⟨"Alice", "a@x", ∅, ∅⟩)).permissions.sort
        (· ≤ ·)).count "read" = 1 ∧
    ((recordAddPath "Direct" ["read"] ⟨"Alice", "a@x", ∅, ∅⟩).access_via.sort
        (· ≤ ·)).count "Direct" = 1 :=
  access_accumulation_idempotent ⟨"Alice", "a@x", ∅, ∅⟩ "Direct" "Group: Admins"
    ["read"] "read" (by simp)

/-- Claim C7: a group id absent from the membership cache looks up to the
empty member list, and the resolver behaves exactly as if the cache held
an explicit empty entry for that id; no failure occurs. -/
theorem cache_miss_is_empty (cache : Cache) (gid : String)
    (hmiss : ∀ p ∈ cache, p.1 ≠ gid) :
    cacheGet cache gid = [] ∧
    ∀ (v : VaultRec) (du : List UserRec) (vg : List GroupRec),
      process_vault v du vg cache = process_vault v du vg (cache ++ [(gid, [])]) := by
  constructor
  · unfold cacheGet
    rw [List.find?_eq_none.mpr]
    intro p hp
    simpa using hmiss p hp
  · intro v du vg
    exact process_vault_congr cache (cache ++ [(gid, [])])
      (fun g' => (cacheGet_append_empty cache gid g').symm) v du vg

/-- Witness for C7 at a concrete cache and group id. -/
theorem cache_miss_is_empty_witness :
    cacheGet [("g1", [])] "g2" = [] ∧
    ∀ (v : VaultRec) (du : List UserRec) (vg : List GroupRec),
      process_vault v du vg [("g1", [])] =
        process_vault v du vg ([("g1", [])] ++ [("g2", [])]) :=
  cache_miss_is_empty [("g1", [])] "g2" (by simp)

/-- Claim C9: the membership cache is read-only during vault resolution:
the state-threaded resolver returns the cache unchanged, and its rows
agree with the pure resolver. -/
theorem process_vault_cache_readonly (v : VaultRec) (du : List UserRec)
    (vg : List GroupRec) (cache : Cache) :
    (process_vaultS v du vg cache).2 = cache ∧
    (process_vaultS v du vg cache).1 = process_vault v du vg cache := by
  cases h : v.id with
  | none => simp [process_vaultS, process_vault, h]
  | some vid =>
      by_cases hs : vid = ""
      · simp [process_vaultS, process_vault, h, hs]
      · simp [process_vaultS, process_vault, h, hs, foldl_addGroupS_eq, buildVaultAccess]

/-- Claim C10: a direct-user or group-member record with a missing or
falsy id is skipped without touching the accumulator, and a vault with a
missing or falsy id yields no rows at all. -/
theorem falsy_ids_skipped (m : AccessMap) (u : UserRec) (gname : String)
    (gperms : List String) (mem : UserRec) (v : VaultRec) (du : List UserRec)
    (vg : List GroupRec) (cache : Cache)
    (hu : u.id = none ∨ u.id = some "")
    (hmem : mem.id = none ∨ mem.id = some "")
    (hv : v.id = none ∨ v.id = some "") :
    addDirectUser m u = m ∧ addMember gname gperms m mem = m ∧
      process_vault v du vg cache = [] := by
  refine ⟨?_, ?_, ?_⟩
  · rcases hu with h | h <;> simp [addDirectUser, h]
  · rcases hmem with h | h <;> simp [addMember, h]
  · rcases hv with h | h <;> simp [process_vault, h]

/-- Witness for C10 at concrete falsy records. -/
theorem falsy_ids_skipped_witness :
    addDirectUser [] ⟨none, some "NoId", none, none⟩ = [] ∧
    addMember "Admins" ["read"] [] ⟨some "", none, none, none⟩ = [] ∧
    process_vault ⟨some "", some "Anonymous Vault"⟩ [] [] [] = [] :=
  falsy_ids_skipped [] ⟨none, some "NoId", none, none⟩ "Admins" ["read"]
    ⟨some "", none, none, none⟩ ⟨some "", some "Anonymous Vault"⟩ [] [] []
    (Or.inl rfl) (Or.inr rfl) (Or.inr rfl)

/-- Claim C2: the resolver is deterministic on identical fetched input,
and its joined fields do not depend on the iteration order of the
underlying sets: joining any sorted duplicate-free listing of a set gives
the same string as `joinSorted` of the set. -/
theorem resolver_deterministic (v : VaultRec) (du : List UserRec) (vg : List GroupRec)
    (c : Cache) :
    process_vault v du vg c = process_vault v du vg c ∧
    ∀ (l sortedl : List String), l.Nodup → sortedl.Perm l → sortedl.Sorted (· ≤ ·) →
      String.intercalate ", " sortedl = joinSorted l.toFinset := by
  refine ⟨rfl, ?_⟩
  intro l sortedl hnd hperm hsort
  have hnd' : sortedl.Nodup := hperm.nodup_iff.mpr hnd
  have hts : sortedl.toFinset = l.toFinset := List.toFinset_eq_of_perm _ _ hperm
  rw [joinSorted, ← hts, (List.toFinset_sort (· ≤ ·) hnd').mpr hsort]

/-- Witness for C2 at a concrete set listing. -/
theorem resolver_deterministic_witness :
    String.intercalate ", " ["read"] = joinSorted (["read"].toFinset) :=
  (resolver_deterministic ⟨some "v1", some "V"⟩ [] [] []).2
    ["read"] ["read"] (by simp) (List.Perm.refl _) (by simp)

/-- Claim C3: failures of the two universe fetches are fatal (an error
outcome, and exit status 1 for the run), while failures of any
per-resource fetch return the empty list. -/
theorem authority_error_contract :
    (∀ r : RawResult (List VaultRec), r.isOk = false → ∃ msg, get_vaults r = .error msg) ∧
    (∀ r : RawResult (List GroupRec), r.isOk = false → ∃ msg, get_all_groups r = .error msg) ∧
    (∀ (w : World) (order : List VaultRec),
      (w.vaultsRaw.isOk = false ∨ w.groupsRaw.isOk = false) →
      exitCode (runMain w order) = 1) ∧
    (∀ r : RawResult (List UserRec), r.isOk = false → get_vault_users r = []) ∧
    (∀ r : RawResult (List GroupRec), r.isOk = false → get_vault_groups r = []) ∧
    (∀ r : RawResult (List UserRec), r.isOk = false → get_group_members r = []) := by
  refine ⟨?_, ?_, ?_, ?_, ?_, ?_⟩
  · intro r h
    cases r <;> simp [RawResult.isOk] at h ⊢ <;> simp [get_vaults]
  · intro r h
    cases r <;> simp [RawResult.isOk] at h ⊢ <;> simp [get_all_groups]
  · intro w order h
    rcases exitCode_dichotomy (runMain w order) with h0 | h1
    · exfalso
      obtain ⟨_, _, hvOk, hgOk⟩ := (runMain_exit_zero_iff w order).mp h0
      rcases h with h | h <;> simp_all
    · exact h1
  · intro r h
    cases r <;> simp [RawResult.isOk] at h ⊢ <;> simp [get_vault_users]
  · intro r h
    cases r <;> simp [RawResult.isOk] at h ⊢ <;> simp [get_vault_groups]
  · intro r h
    cases r <;> simp [RawResult.isOk] at h ⊢ <;> simp [get_group_members]

/-- A world whose vault-universe fetch fails but whose other calls
succeed, for exercising the fatal path. -/
def vaultFetchFailWorld : World :=
  { opInstalled := true, signedIn := true, vaultsRaw := .procError,
    groupsRaw := .ok [], vaultUsers := fun _ => .ok [],
    vaultGroups := fun _ => .ok [], groupMembers := fun _ => .ok [],
    writeOk := true }

/-- Witness for C3 at concrete failing calls. -/
theorem authority_error_contract_witness :
    (∃ msg, get_vaults (RawResult.procError) = .error msg) ∧
    (∃ msg, get_all_groups (RawResult.jsonError) = .error msg) ∧
    exitCode (runMain vaultFetchFailWorld []) = 1 ∧
    get_vault_users (RawResult.procError) = [] ∧
    get_vault_groups (RawResult.jsonError) = [] ∧
    get_group_members (RawResult.procError) = [] :=
  ⟨authority_error_contract.1 _ rfl,
   authority_error_contract.2.1 _ rfl,
   authority_error_contract.2.2.1 vaultFetchFailWorld [] (Or.inl rfl),
   authority_error_contract.2.2.2.1 _ rfl,
   authority_error_contract.2.2.2.2.1 _ rfl,
   authority_error_contract.2.2.2.2.2 _ rfl⟩

/-- A world where everything succeeds except the CSV write. -/
def failedWriteWorld : World :=
  { opInstalled := true, signedIn := true, vaultsRaw := .ok [],
    groupsRaw := .ok [], vaultUsers := fun _ => .ok [],
    vaultGroups := fun _ => .ok [], groupMembers := fun _ => .ok [],
    writeOk := false }

/-- Counterexample to C4 as stated: a run whose report write fails still
exits with status 0 (`main` catches `IOError`, prints the error, and
falls through to the success message). -/
theorem write_failure_still_exits_zero :
    exitCode (runMain failedWriteWorld []) = 0 ∧ failedWriteWorld.writeOk = false := by
  constructor <;> rfl

/-- Claim C4 (amended): a report-write failure leaves the resolved
in-memory report data unchanged and is recorded in the outcome, but the
run still exits zero; exit status 0 depends only on the CLI checks and
the two universe fetches. -/
theorem write_failure_amended (w : World) (order : List VaultRec) :
    reportOf (runMain w order) = reportOf (runMain { w with writeOk := false } order) ∧
    (exitCode (runMain w order) = 0 ↔
      (w.opInstalled = true ∧ w.signedIn = true ∧
        w.vaultsRaw.isOk = true ∧ w.groupsRaw.isOk = true)) := by
  constructor
  · by_cases h1 : w.opInstalled <;> by_cases h2 : w.signedIn <;>
      cases hv : w.vaultsRaw <;> cases hg : w.groupsRaw <;>
        simp [runMain, h1, h2, hv, hg, get_vaults, get_all_groups, reportOf,
          resolveVault, buildCache]
  · exact runMain_exit_zero_iff w order

/-- Witness for C4 (amended) at the concrete failed-write world. -/
theorem write_failure_amended_witness :
    reportOf (runMain failedWriteWorld []) =
      reportOf (runMain { failedWriteWorld with writeOk := false } []) ∧
    (exitCode (runMain failedWriteWorld []) = 0 ↔
      (failedWriteWorld.opInstalled = true ∧ failedWriteWorld.signedIn = true ∧
        failedWriteWorld.vaultsRaw.isOk = true ∧ failedWriteWorld.groupsRaw.isOk = true)) :=
  write_failure_amended failedWriteWorld []

/-- Claim C8: the final report is exactly the concatenation of the
per-vault resolver outputs in task-completion order, and as a multiset it
equals the concatenation in vault-list order: no merging or deduplication
happens across vaults. -/
theorem report_is_concat (w : World) (order vaults : List VaultRec) (gs : List GroupRec)
    (h1 : w.opInstalled = true) (h2 : w.signedIn = true)
    (hv : w.vaultsRaw = .ok vaults) (hg : w.groupsRaw = .ok gs)
    (hperm : order.Perm vaults) :
    runMain w order =
      .finished (order.flatMap (fun x => resolveVault w (buildCache w gs) x)) w.writeOk ∧
    (order.flatMap (fun x => resolveVault w (buildCache w gs) x)).Perm
      (vaults.flatMap (fun x => resolveVault w (buildCache w gs) x)) := by
  constructor
  · simp [runMain, h1, h2, hv, hg, get_vaults, get_all_groups]
  · exact hperm.flatMap_right _

/-- A world with one vault carrying one direct user, for exercising the
fan-in. -/
def oneVaultWorld : World :=
  { opInstalled := true, signedIn := true,
    vaultsRaw := .ok [⟨some "v1", some "Eng"⟩],
    groupsRaw := .ok [],
    vaultUsers := fun _ => .ok [⟨some "u1", some "Alice", some "alice@x.com", some ["read"]⟩],
    vaultGroups := fun _ => .ok [], groupMembers := fun _ => .ok [],
    writeOk := true }

/-- Witness for C8 at the concrete one-vault world. -/
theorem report_is_concat_witness :
    runMain oneVaultWorld [⟨some "v1", some "Eng"⟩] =
      .finished ([(⟨some "v1", some "Eng"⟩ : VaultRec)].flatMap
        (fun x => resolveVault oneVaultWorld (buildCache oneVaultWorld []) x))
        oneVaultWorld.writeOk ∧
    ([(⟨some "v1", some "Eng"⟩ : VaultRec)].flatMap
        (fun x => resolveVault oneVaultWorld (buildCache oneVaultWorld []) x)).Perm
      ([(⟨some "v1", some "Eng"⟩ : VaultRec)].flatMap
        (fun x => resolveVault oneVaultWorld (buildCache oneVaultWorld []) x)) :=
  report_is_concat oneVaultWorld [⟨some "v1", some "Eng"⟩] [⟨some "v1", some "Eng"⟩] []
    rfl rfl rfl rfl (List.Perm.refl _)

/-- Claim C1: a user who appears exactly once in the vault's direct-user
list with permission set P1 and is reached exactly once through a group
granted P2 on the vault gets one accumulated record whose permission set
is exactly P1 ∪ P2 and whose access-via labels contain both "Direct" and
the group's label; the flattened row for that record is emitted. -/
theorem direct_and_group_access_merged
    (v : VaultRec) (vid : String) (du : List UserRec) (vg : List GroupRec) (cache : Cache)
    (uid : String) (u : UserRec) (g : GroupRec) (mem : UserRec)
    (hv : v.id = some vid) (hvid : vid ≠ "") (huid : uid ≠ "")
    (hdu : du.filter (fun x => x.id == some uid) = [u])
    (hgu : groupUpdates cache vg uid = [(g, mem)]) :
    ∃ rec : AccessRecord,
      lookup? (buildVaultAccess du vg cache) uid = some rec ∧
      rec.permissions =
        (u.permissions.getD []).toFinset ∪ (g.permissions.getD []).toFinset ∧
      "Direct" ∈ rec.access_via ∧
      ("Group: " ++ g.name.getD "Unknown Group") ∈ rec.access_via ∧
      flattenRow (v.name.getD "Unknown Vault") rec ∈ process_vault v du vg cache := by
  have hlook := lookup?_buildVaultAccess du vg cache uid huid
  rw [hdu, hgu] at hlook
  simp only [List.foldl_cons, List.foldl_nil, Option.elim, groupStep] at hlook
  refine ⟨recordAddPath ("Group: " ++ g.name.getD "Unknown Group")
    (g.permissions.getD []) (freshDirect u), hlook, ?_, ?_, ?_, ?_⟩
  · simp [recordAddPath, freshDirect]
  · simp [recordAddPath, freshDirect]
  · exact Finset.mem_insert_self _ _
  · simp only [process_vault, hv, if_neg hvid, List.mem_map]
    exact ⟨_, mem_of_lookup? _ _ _ hlook, rfl⟩

/-- Witness for C1: Alice has direct read/write on the vault and manage
through the Admins group. -/
theorem direct_and_group_access_merged_witness :
    ∃ rec : AccessRecord,
      lookup? (buildVaultAccess
        [⟨some "u1", some "Alice", some "alice@x.com", some ["read", "write"]⟩]
        [⟨some "g1", some "Admins", some ["manage"]⟩]
        [("g1", [⟨some "u1", some "Alice", some "alice@x.com", none⟩])]) "u1" = some rec ∧
      rec.permissions =
        ((⟨some "u1", some "Alice", some "alice@x.com", some ["read", "write"]⟩ :
            UserRec).permissions.getD []).toFinset ∪
          ((⟨some "g1", some "Admins", some ["manage"]⟩ :
            GroupRec).permissions.getD []).toFinset ∧
      "Direct" ∈ rec.access_via ∧
      ("Group: " ++ (⟨some "g1", some "Admins", some ["manage"]⟩ :
          GroupRec).name.getD "Unknown Group") ∈ rec.access_via ∧
      flattenRow ((⟨some "v1", some "Eng"⟩ : VaultRec).name.getD "Unknown Vault") rec ∈
        process_vault ⟨some "v1", some "Eng"⟩
          [⟨some "u1", some "Alice", some "alice@x.com", some ["read", "write"]⟩]
          [⟨some "g1", some "Admins", some ["manage"]⟩]
          [("g1", [⟨some "u1", some "Alice", some "alice@x.com", none⟩])] :=
  direct_and_group_access_merged
    ⟨some "v1", some "Eng"⟩ "v1"
    [⟨some "u1", some "Alice", some "alice@x.com", some ["read", "write"]⟩]
    [⟨some "g1", some "Admins", some ["manage"]⟩]
    [("g1", [⟨some "u1", some "Alice", some "alice@x.com", none⟩])]
    "u1"
    ⟨some "u1", some "Alice", some "alice@x.com", some ["read", "write"]⟩
    ⟨some "g1", some "Admins", some ["manage"]⟩
    ⟨some "u1", some "Alice", some "alice@x.com", none⟩
    rfl (by decide) (by decide) (by decide) (by decide)

end OPAudit
